import Mathlib

/-!
Verification development for the single-file async runtime in `src/runtime.rs`
(crate `grpc-greeter`).  The runtime is a per-worker cooperative scheduler:
each worker thread owns a thread-local runnable queue (`RUNNABLE`, a
`VecDeque<Rc<Task>>`), a reactor (`Poller` with a `HashMap<Token, Waker>`
wait registry), and runs a drain loop that snapshots the queue, polls every
task in the snapshot, and blocks in `poll.poll` when the queue is empty.

We shallow-embed the scheduler as a labelled transition system over a
`WorkerState`, and the reactor registry / I/O poll functions / waker vtable
as plain functions.  Tasks are identified by their spawn index; machine
pointers (`Rc<Task>`) are represented by those indices.
-/

namespace GreeterRuntime

/-- Task states, mirroring `enum State` in runtime.rs (lines 105-111):
Ready = on runnable, Running = during polling, Pending = waiting for an
event, Done = finished. -/
inductive State where
  | Ready
  | Running
  | Pending
  | Done
deriving DecidableEq

/-- The scheduler-visible state of one worker thread.
`states` maps a task id (its spawn index) to its `Cell<State>`;
`runnable` is the thread-local `RUNNABLE` deque (front at head);
`ready` is the local working deque of the current drain pass
(`let mut ready = VecDeque::new(); ready.append(&mut runnable)` in `run`);
`current` is the task whose future is being polled right now, if any. -/
structure WorkerState where
  states : List State
  runnable : List Nat
  ready : List Nat
  current : Option Nat
deriving DecidableEq

/-- The wake protocol, a direct translation of
`impl RcWake for Task { fn wake_by_ref .. }` (runtime.rs lines 118-132):
Ready does nothing; Pending sets Ready and pushes the task onto `RUNNABLE`;
Running sets Ready without enqueueing; Done does nothing.  `none` means the
waked task id does not exist (unreachable for real wakers, which hold an
`Rc<Task>`). -/
def wake_by_ref (s : WorkerState) (t : Nat) : Option WorkerState :=
  match s.states.get? t with
  | some State.Ready => some s
  | some State.Pending =>
      some { s with states := s.states.set t State.Ready,
                    runnable := s.runnable ++ [t] }
  | some State.Running =>
      some { s with states := s.states.set t State.Ready }
  | some State.Done => some s
  | none => none

/-- Translation of `pub fn spawn` (runtime.rs lines 134-140): allocate a
fresh `Task` with state `Ready` and push it onto the back of `RUNNABLE`.
The fresh task id is the next spawn index, `s.states.length`. -/
def spawn (s : WorkerState) : WorkerState :=
  { s with states := s.states ++ [State.Ready],
           runnable := s.runnable ++ [s.states.length] }

/-- Atomic events of the worker loop in `run` (runtime.rs lines 49-95),
plus `wake` events which the polled future or the reactor may fire.
`dequeue t` records which task the inner `while let Some(t) =
ready.pop_front()` took; `pollPending` / `pollDone` are the two outcomes of
`Pin::new(future).as_mut().poll(..)` together with the post-poll state
bookkeeping; `wait` marks the worker blocking in `p.poll.poll(..)`. -/
inductive Label where
  | spawn
  | snapshot
  | dequeue (t : Nat)
  | wake (t : Nat)
  | pollPending
  | pollDone
  | wait
deriving DecidableEq

/-- One atomic step of the worker, guarded exactly as in the source:
a snapshot (`ready.append(&mut runnable)`) happens only at the top of the
inner loop, with no poll in progress and the previous working list
exhausted; a dequeue sets the task's state to `Running` (line 67);
when a poll returns `Poll::Pending` the state is set to `Pending` only if
it is still `Running` (lines 75-79); when it returns `Poll::Ready` the
state is unconditionally set to `Done` (line 81); the reactor wait runs
only when the queue drained empty (lines 62-64 break, then lines 86-94).
Wake events may interleave anywhere (from inside a poll via the context
waker, or from the reactor dispatch). -/
def step (s : WorkerState) : Label → Option WorkerState
  | Label.spawn => some (spawn s)
  | Label.snapshot =>
      match s.current, s.ready with
      | none, [] => some { s with ready := s.runnable, runnable := [] }
      | _, _ => none
  | Label.dequeue t =>
      match s.current, s.ready with
      | none, u :: rest =>
          if u = t then
            some { s with states := s.states.set t State.Running,
                          ready := rest, current := some t }
          else none
      | _, _ => none
  | Label.wake t => wake_by_ref s t
  | Label.pollPending =>
      match s.current with
      | some t =>
          match s.states.get? t with
          | some State.Running =>
              some { s with states := s.states.set t State.Pending,
                            current := none }
          | _ => some { s with current := none }
      | none => none
  | Label.pollDone =>
      match s.current with
      | some t =>
          some { s with states := s.states.set t State.Done, current := none }
      | none => none
  | Label.wait =>
      match s.runnable, s.ready, s.current with
      | [], [], none => some s
      | _, _, _ => none

/-- Run a list of labelled steps from a state. -/
def runTrace (s : WorkerState) : List Label → Option WorkerState
  | [] => some s
  | l :: ls =>
      match step s l with
      | some s1 => runTrace s1 ls
      | none => none

/-- The worker's initial state: no tasks, empty queues, nothing running. -/
def init : WorkerState :=
  { states := [], runnable := [], ready := [], current := none }

/-- A worker state is reachable if some trace of steps from `init`
produces it. -/
def Reachable (s : WorkerState) : Prop :=
  ∃ ls, runTrace init ls = some s

/-- The scheduler invariant: every task sitting in the runnable queue or in
the drain working list is in state `Ready`; the task currently being polled
is in state `Running` or `Ready` (`Ready` when a wake raced with the poll)
and is not in either queue; and the concatenation of both queues has no
duplicate entries. -/
structure Inv (s : WorkerState) : Prop where
  queueReady : ∀ t ∈ s.runnable ++ s.ready, s.states.get? t = some State.Ready
  currentState : ∀ t, s.current = some t →
      s.states.get? t = some State.Running ∨ s.states.get? t = some State.Ready
  currentNotQueued : ∀ t, s.current = some t → t ∉ s.runnable ∧ t ∉ s.ready
  nodup : (s.runnable ++ s.ready).Nodup

theorem nodup_snoc_append {l₁ l₂ : List Nat} {a : Nat}
    (h : (l₁ ++ l₂).Nodup) (ha : a ∉ l₁ ++ l₂) : ((l₁ ++ [a]) ++ l₂).Nodup := by
  have he : (l₁ ++ [a]) ++ l₂ = l₁ ++ a :: l₂ := by
    rw [List.append_assoc, List.singleton_append]
  rw [he]
  exact List.Perm.nodup List.perm_middle.symm (List.nodup_cons.mpr ⟨ha, h⟩)

theorem mem_snoc_append {l₁ l₂ : List Nat} {a t : Nat}
    (h : t ∈ (l₁ ++ [a]) ++ l₂) : t ∈ l₁ ++ l₂ ∨ t = a := by
  rcases List.mem_append.mp h with h' | h'
  · rcases List.mem_append.mp h' with h'' | h''
    · exact Or.inl (List.mem_append.mpr (Or.inl h''))
    · exact Or.inr (List.mem_singleton.mp h'')
  · exact Or.inl (List.mem_append.mpr (Or.inr h'))

theorem inv_init : Inv init := by
  refine ⟨?_, ?_, ?_, ?_⟩
  · intro t ht; cases ht
  · intro t ht; cases ht
  · intro t ht; cases ht
  · exact List.nodup_nil

theorem inv_spawn (s : WorkerState) (h : Inv s) : Inv (spawn s) := by
  have hfresh : s.states.get? s.states.length = none :=
    List.get?_eq_none.mpr (le_refl _)
  have hnotmem : s.states.length ∉ s.runnable ++ s.ready := by
    intro hm
    have hr := h.queueReady _ hm
    rw [hfresh] at hr
    exact Option.noConfusion hr
  refine ⟨?_, ?_, ?_, ?_⟩
  · intro t ht
    rcases mem_snoc_append ht with hold | rfl
    · have hr := h.queueReady _ hold
      have hlt : t < s.states.length := by
        rcases List.get?_eq_some.mp hr with ⟨hlt, _⟩
        exact hlt
      rw [show (spawn s).states = s.states ++ [State.Ready] from rfl,
        List.get?_append hlt]
      exact hr
    · exact List.get?_concat_length s.states State.Ready
  · intro t ht
    have hc := h.currentState t ht
    have hlt : t < s.states.length := by
      rcases hc with hc | hc <;> rcases List.get?_eq_some.mp hc with ⟨hlt, _⟩ <;> exact hlt
    rw [show (spawn s).states = s.states ++ [State.Ready] from rfl,
      List.get?_append hlt]
    exact hc
  · intro t ht
    have hc := h.currentState t ht
    have hq := h.currentNotQueued t ht
    have hne : t ≠ s.states.length := by
      intro he
      rcases hc with hc | hc <;> rw [he, hfresh] at hc <;> exact Option.noConfusion hc
    constructor
    · intro hm
      rcases List.mem_append.mp hm with hm | hm
      · exact hq.1 hm
      · exact hne (List.mem_singleton.mp hm)
    · exact hq.2
  · exact nodup_snoc_append h.nodup hnotmem

theorem inv_wake (s s' : WorkerState) (t : Nat) (h : Inv s)
    (hs : wake_by_ref s t = some s') : Inv s' := by
  unfold wake_by_ref at hs
  split at hs
  case h_1 hst =>
    cases hs; exact h
  case h_4 hst =>
    cases hs; exact h
  case h_5 hst =>
    exact Option.noConfusion hs
  case h_2 hst =>
    injection hs with hs
    subst hs
    have hlt : t < s.states.length := by
      rcases List.get?_eq_some.mp hst with ⟨hlt, _⟩
      exact hlt
    have htnm : t ∉ s.runnable ++ s.ready := by
      intro hm
      have hr := h.queueReady _ hm
      rw [hst] at hr
      exact State.noConfusion (Option.some.inj hr)
    refine ⟨?_, ?_, ?_, ?_⟩
    · intro u hu
      rcases mem_snoc_append hu with hold | rfl
      · have hne : t ≠ u := fun he => htnm (he ▸ hold)
        rw [List.get?_set_ne _ _ hne]
        exact h.queueReady _ hold
      · exact List.get?_set_eq_of_lt _ hlt
    · intro u hu
      have hc := h.currentState u hu
      have hne : t ≠ u := by
        intro he
        subst he
        rcases hc with hc | hc <;> rw [hst] at hc <;>
          exact State.noConfusion (Option.some.inj hc)
      rw [List.get?_set_ne _ _ hne]
      exact hc
    · intro u hu
      have hq := h.currentNotQueued u hu
      have hc := h.currentState u hu
      have hne : u ≠ t := by
        intro he
        subst he
        rcases hc with hc | hc <;> rw [hst] at hc <;>
          exact State.noConfusion (Option.some.inj hc)
      constructor
      · intro hm
        rcases List.mem_append.mp hm with hm | hm
        · exact hq.1 hm
        · exact hne (List.mem_singleton.mp hm)
      · exact hq.2
    · exact nodup_snoc_append h.nodup htnm
  case h_3 hst =>
    injection hs with hs
    subst hs
    have hlt : t < s.states.length := by
      rcases List.get?_eq_some.mp hst with ⟨hlt, _⟩
      exact hlt
    refine ⟨?_, ?_, ?_, ?_⟩
    · intro u hu
      have hr := h.queueReady _ hu
      have hne : t ≠ u := by
        intro he
        rw [he, hr] at hst
        exact State.noConfusion (Option.some.inj hst)
      rw [List.get?_set_ne _ _ hne]
      exact hr
    · intro u hu
      by_cases he : t = u
      · subst he
        right
        exact List.get?_set_eq_of_lt _ hlt
      · rw [List.get?_set_ne _ _ he]
        exact h.currentState u hu
    · exact h.currentNotQueued
    · exact h.nodup

theorem inv_step (s s' : WorkerState) (l : Label) (h : Inv s)
    (hs : step s l = some s') : Inv s' := by
  cases l with
  | spawn =>
    injection hs with hs
    subst hs
    exact inv_spawn s h
  | snapshot =>
    unfold step at hs
    cases hc : s.current with
    | some u => rw [hc] at hs; exact Option.noConfusion hs
    | none =>
      rw [hc] at hs
      cases hr : s.ready with
      | cons u rest => rw [hr] at hs; exact Option.noConfusion hs
      | nil =>
        rw [hr] at hs
        injection hs with hs
        subst hs
        have hq := h.queueReady
        have hn := h.nodup
        rw [hr, List.append_nil] at hq hn
        refine ⟨?_, ?_, ?_, ?_⟩
        · intro t ht
          rw [List.nil_append] at ht
          exact hq t ht
        · intro t ht; exact Option.noConfusion ht
        · intro t ht; exact Option.noConfusion ht
        · rw [List.nil_append]; exact hn
  | dequeue t =>
    simp only [step] at hs
    split at hs
    case h_2 => exact Option.noConfusion hs
    case h_1 u rest hc hr =>
      split at hs
      case isFalse => exact Option.noConfusion hs
      case isTrue he =>
          subst he
          injection hs with hs
          subst hs
          have hmem : u ∈ s.runnable ++ s.ready := by
            rw [hr]
            exact List.mem_append.mpr (Or.inr (List.mem_cons.mpr (Or.inl rfl)))
          have hrd := h.queueReady _ hmem
          have hlt : u < s.states.length := by
            rcases List.get?_eq_some.mp hrd with ⟨hlt, _⟩
            exact hlt
          have hn := h.nodup
          rw [hr] at hn
          have hdisj := List.nodup_append.mp hn
          have hunr : u ∉ s.runnable := fun hm =>
            hdisj.2.2 hm (List.mem_cons.mpr (Or.inl rfl))
          have hurest : u ∉ rest := (List.nodup_cons.mp hdisj.2.1).1
          refine ⟨?_, ?_, ?_, ?_⟩
          · intro v hv
            have hvold : v ∈ s.runnable ++ s.ready := by
              rw [hr]
              rcases List.mem_append.mp hv with hv | hv
              · exact List.mem_append.mpr (Or.inl hv)
              · exact List.mem_append.mpr (Or.inr (List.mem_cons.mpr (Or.inr hv)))
            have hne : u ≠ v := by
              intro he
              subst he
              rcases List.mem_append.mp hv with hv | hv
              · exact hunr hv
              · exact hurest hv
            rw [List.get?_set_ne _ _ hne]
            exact h.queueReady _ hvold
          · intro v hv
            have he2 : some u = some v := hv
            have he3 : v = u := (Option.some.inj he2).symm
            subst he3
            left
            exact List.get?_set_eq_of_lt _ hlt
          · intro v hv
            have he2 : some u = some v := hv
            have he3 : v = u := (Option.some.inj he2).symm
            subst he3
            exact ⟨hunr, hurest⟩
          · exact List.Sublist.nodup
              (List.Sublist.append_left (List.sublist_cons_self u rest) s.runnable) hn
  | wake t => exact inv_wake s s' t h hs
  | pollPending =>
    simp only [step] at hs
    split at hs
    case h_2 => exact Option.noConfusion hs
    case h_1 u hc =>
      have hq := h.currentNotQueued u hc
      split at hs
      case h_1 hst =>
        injection hs with hs
        subst hs
        refine ⟨?_, ?_, ?_, ?_⟩
        · intro v hv
          have hne : u ≠ v := by
            intro he
            subst he
            rcases List.mem_append.mp hv with hv | hv
            · exact hq.1 hv
            · exact hq.2 hv
          rw [List.get?_set_ne _ _ hne]
          exact h.queueReady _ hv
        · intro v hv; exact Option.noConfusion hv
        · intro v hv; exact Option.noConfusion hv
        · exact h.nodup
      case h_2 =>
        injection hs with hs
        subst hs
        refine ⟨?_, ?_, ?_, ?_⟩
        · exact h.queueReady
        · intro v hv; exact Option.noConfusion hv
        · intro v hv; exact Option.noConfusion hv
        · exact h.nodup
  | pollDone =>
    simp only [step] at hs
    split at hs
    case h_2 => exact Option.noConfusion hs
    case h_1 u hc =>
      injection hs with hs
      subst hs
      have hq := h.currentNotQueued u hc
      refine ⟨?_, ?_, ?_, ?_⟩
      · intro v hv
        have hne : u ≠ v := by
          intro he
          subst he
          rcases List.mem_append.mp hv with hv | hv
          · exact hq.1 hv
          · exact hq.2 hv
        rw [List.get?_set_ne _ _ hne]
        exact h.queueReady _ hv
      · intro v hv; exact Option.noConfusion hv
      · intro v hv; exact Option.noConfusion hv
      · exact h.nodup
  | wait =>
    simp only [step] at hs
    split at hs
    case h_2 => exact Option.noConfusion hs
    case h_1 hrn hr hc =>
      cases hs
      exact h

theorem inv_runTrace (s s' : WorkerState) (ls : List Label) (h : Inv s)
    (hs : runTrace s ls = some s') : Inv s' := by
  induction ls generalizing s with
  | nil =>
    unfold runTrace at hs
    cases hs
    exact h
  | cons l ls ih =>
    unfold runTrace at hs
    cases hstep : step s l with
    | none => rw [hstep] at hs; exact Option.noConfusion hs
    | some s1 =>
      rw [hstep] at hs
      exact ih s1 (inv_step s s1 l h hstep) hs

theorem inv_reachable (s : WorkerState) (h : Reachable s) : Inv s := by
  rcases h with ⟨ls, hls⟩
  exact inv_runTrace init s ls inv_init hls

/-- Task ids taken by dequeue steps, in order, in a trace. -/
def dequeuedIds : List Label → List Nat
  | [] => []
  | Label.dequeue t :: ls => t :: dequeuedIds ls
  | Label.spawn :: ls => dequeuedIds ls
  | Label.snapshot :: ls => dequeuedIds ls
  | Label.wake _ :: ls => dequeuedIds ls
  | Label.pollPending :: ls => dequeuedIds ls
  | Label.pollDone :: ls => dequeuedIds ls
  | Label.wait :: ls => dequeuedIds ls

theorem step_ready_of_ne (s s1 : WorkerState) (l : Label) (hstep : step s l = some s1)
    (h1 : l ≠ Label.snapshot) (h2 : ∀ t, l ≠ Label.dequeue t) : s1.ready = s.ready := by
  cases l with
  | spawn => injection hstep with hstep; subst hstep; rfl
  | snapshot => exact absurd rfl h1
  | dequeue t => exact absurd rfl (h2 t)
  | wake t =>
    simp only [step] at hstep
    unfold wake_by_ref at hstep
    split at hstep <;> first
      | exact Option.noConfusion hstep
      | (injection hstep with hstep; subst hstep; rfl)
  | pollPending =>
    simp only [step] at hstep
    split at hstep
    case h_2 => exact Option.noConfusion hstep
    case h_1 =>
      split at hstep <;> (injection hstep with hstep; subst hstep; rfl)
  | pollDone =>
    simp only [step] at hstep
    split at hstep
    case h_2 => exact Option.noConfusion hstep
    case h_1 => injection hstep with hstep; subst hstep; rfl
  | wait =>
    simp only [step] at hstep
    split at hstep
    case h_2 => exact Option.noConfusion hstep
    case h_1 => cases hstep; rfl

theorem step_dequeue_ready (s s1 : WorkerState) (t : Nat)
    (hstep : step s (Label.dequeue t) = some s1) : s.ready = t :: s1.ready := by
  simp only [step] at hstep
  split at hstep
  case h_2 => exact Option.noConfusion hstep
  case h_1 u rest hc hr =>
    split at hstep
    case isFalse => exact Option.noConfusion hstep
    case isTrue he =>
      subst he
      injection hstep with hstep
      subst hstep
      exact hr

/-- Inside one drain pass (no snapshot happens), the working list shrinks
exactly by the dequeued ids, front first. -/
theorem runTrace_ready_dequeued (s s' : WorkerState) (ls : List Label)
    (hs : runTrace s ls = some s') (hns : ∀ l ∈ ls, l ≠ Label.snapshot) :
    s.ready = dequeuedIds ls ++ s'.ready := by
  induction ls generalizing s with
  | nil =>
    unfold runTrace at hs
    cases hs
    rfl
  | cons l ls ih =>
    unfold runTrace at hs
    cases hstep : step s l with
    | none => rw [hstep] at hs; exact Option.noConfusion hs
    | some s1 =>
      rw [hstep] at hs
      have hhead : l ≠ Label.snapshot := hns l (List.mem_cons.mpr (Or.inl rfl))
      have htail : ∀ l' ∈ ls, l' ≠ Label.snapshot := fun l' hl' =>
        hns l' (List.mem_cons.mpr (Or.inr hl'))
      have ihh := ih s1 hs htail
      cases l with
      | dequeue t =>
        have hr := step_dequeue_ready s s1 t hstep
        rw [hr, ihh]
        rfl
      | spawn =>
        rw [show dequeuedIds (Label.spawn :: ls) = dequeuedIds ls from rfl,
          ← step_ready_of_ne s s1 Label.spawn hstep hhead (fun t => Label.noConfusion)]
        exact ihh
      | snapshot => exact absurd rfl hhead
      | wake t =>
        rw [show dequeuedIds (Label.wake t :: ls) = dequeuedIds ls from rfl,
          ← step_ready_of_ne s s1 (Label.wake t) hstep hhead (fun u => Label.noConfusion)]
        exact ihh
      | pollPending =>
        rw [show dequeuedIds (Label.pollPending :: ls) = dequeuedIds ls from rfl,
          ← step_ready_of_ne s s1 Label.pollPending hstep hhead (fun u => Label.noConfusion)]
        exact ihh
      | pollDone =>
        rw [show dequeuedIds (Label.pollDone :: ls) = dequeuedIds ls from rfl,
          ← step_ready_of_ne s s1 Label.pollDone hstep hhead (fun u => Label.noConfusion)]
        exact ihh
      | wait =>
        rw [show dequeuedIds (Label.wait :: ls) = dequeuedIds ls from rfl,
          ← step_ready_of_ne s s1 Label.wait hstep hhead (fun u => Label.noConfusion)]
        exact ihh

/-- The adjacent state pairs allowed by the spec's claimed sequence
`Ready -> Running -> (Pending -> Ready -> Running)* -> Done`. -/
def claimNext : State → State → Bool
  | State.Ready, State.Running => true
  | State.Running, State.Pending => true
  | State.Running, State.Done => true
  | State.Pending, State.Ready => true
  | _, _ => false

/-- The state transitions the code actually performs.  Beyond the spec's
claimed sequence it contains `Running -> Ready` (a wake arriving while the
task's own poll runs, runtime.rs lines 126-128) and `Ready -> Done` (the
poll completed even though such a wake arrived, line 81). -/
def codeNext : State → State → Bool
  | State.Ready, State.Running => true
  | State.Ready, State.Done => true
  | State.Running, State.Pending => true
  | State.Running, State.Done => true
  | State.Running, State.Ready => true
  | State.Pending, State.Ready => true
  | _, _ => false

/-- The reactor's wait registry, `Poller.wait : HashMap<Token, Waker>`,
modelled as a function from token to the stored waker (identified by the
task it wakes).  `insertWait` is `HashMap::insert` as used by the
suspend points (`poller.borrow_mut().wait.insert(token, cx.waker().clone())`):
it overwrites any waker previously stored for the token. -/
def insertWait (m : Nat → Option Nat) (k w : Nat) : Nat → Option Nat :=
  fun q => if q = k then some w else m q

/-- `HashMap::remove` as used by the event dispatch loop
(`p.wait.remove(&e.token())`, runtime.rs line 90). -/
def removeWait (m : Nat → Option Nat) (k : Nat) : Nat → Option Nat :=
  fun q => if q = k then none else m q

/-- The reactor dispatch loop (runtime.rs lines 89-93):
`for e in events { if let Some(w) = p.wait.remove(&e.token()) { w.wake(); } }`.
Returns the final registry and the list of (token, waker) invocations made,
in order. -/
def dispatchEvents : (Nat → Option Nat) → List Nat → (Nat → Option Nat) × List (Nat × Nat)
  | m, [] => (m, [])
  | m, e :: es =>
      match m e with
      | some w =>
          let r := dispatchEvents (removeWait m e) es
          (r.1, (e, w) :: r.2)
      | none => dispatchEvents m es

theorem dispatch_none (m : Nat → Option Nat) (es : List Nat) (k : Nat)
    (hk : m k = none) : (dispatchEvents m es).1 k = none := by
  induction es generalizing m with
  | nil => exact hk
  | cons e es ih =>
    unfold dispatchEvents
    cases he : m e with
    | some w =>
      have hk' : removeWait m e k = none := by
        unfold removeWait
        by_cases h : k = e <;> simp [h, hk]
      exact ih (removeWait m e) hk'
    | none => exact ih m hk

theorem dispatch_mem_none (m : Nat → Option Nat) (es : List Nat) :
    ∀ k ∈ es, (dispatchEvents m es).1 k = none := by
  induction es generalizing m with
  | nil => intro k hk; cases hk
  | cons e es ih =>
    intro k hk
    unfold dispatchEvents
    cases he : m e with
    | some w =>
      by_cases hke : k = e
      · rw [hke]
        exact dispatch_none (removeWait m e) es e (by unfold removeWait; simp)
      · rcases List.mem_cons.mp hk with heq | hk'
        · exact absurd heq hke
        · exact ih (removeWait m e) k hk'
    | none =>
      rcases List.mem_cons.mp hk with heq | hk'
      · rw [heq]
        exact dispatch_none m es e he
      · exact ih m k hk'

theorem dispatch_pairs_stored (m : Nat → Option Nat) (es : List Nat) :
    ∀ p ∈ (dispatchEvents m es).2, m p.1 = some p.2 := by
  induction es generalizing m with
  | nil => intro p hp; cases hp
  | cons e es ih =>
    intro p hp
    unfold dispatchEvents at hp
    cases he : m e with
    | some w =>
      rw [he] at hp
      rcases List.mem_cons.mp hp with rfl | hp'
      · exact he
      · have hrm := ih (removeWait m e) p hp'
        unfold removeWait at hrm
        by_cases h : p.1 = e
        · rw [if_pos h] at hrm; exact Option.noConfusion hrm
        · rw [if_neg h] at hrm; exact hrm
    | none =>
      rw [he] at hp
      exact ih m p hp

theorem dispatch_keys_nodup (m : Nat → Option Nat) (es : List Nat) :
    ((dispatchEvents m es).2.map Prod.fst).Nodup := by
  induction es generalizing m with
  | nil => exact List.nodup_nil
  | cons e es ih =>
    unfold dispatchEvents
    cases he : m e with
    | some w =>
      refine List.nodup_cons.mpr ⟨?_, ih (removeWait m e)⟩
      intro hmem
      rcases List.mem_map.mp hmem with ⟨p, hp, hpe⟩
      have := dispatch_pairs_stored (removeWait m e) es p hp
      rw [hpe] at this
      unfold removeWait at this
      rw [if_pos rfl] at this
      exact Option.noConfusion this
    | none => exact ih m

theorem dispatch_complete (m : Nat → Option Nat) (es : List Nat) :
    ∀ k ∈ es, (m k).isSome →
      k ∈ (dispatchEvents m es).2.map Prod.fst := by
  induction es generalizing m with
  | nil => intro k hk; cases hk
  | cons e es ih =>
    intro k hk hsome
    unfold dispatchEvents
    cases he : m e with
    | some w =>
      by_cases hke : k = e
      · subst hke
        exact List.mem_map.mpr ⟨(k, w), List.mem_cons.mpr (Or.inl rfl), rfl⟩
      · rcases List.mem_cons.mp hk with rfl | hk'
        · exact absurd rfl hke
        · have : (removeWait m e k).isSome := by
            unfold removeWait
            rw [if_neg hke]
            exact hsome
          have hmem := ih (removeWait m e) k hk' this
          exact List.mem_map.mpr (by
            rcases List.mem_map.mp hmem with ⟨p, hp, hpe⟩
            exact ⟨p, List.mem_cons.mpr (Or.inr hp), hpe⟩)
    | none =>
      rcases List.mem_cons.mp hk with rfl | hk'
      · rw [he] at hsome; exact Bool.noConfusion hsome
      · exact ih m k hk' hsome

/-- Result of one attempt of the underlying non-blocking OS call
(`accept` / `read` / `write`): success carrying a value (accepted stream
id or byte count), the would-block condition, or another OS error. -/
inductive IOResult where
  | ok (n : Nat)
  | wouldBlock
  | err (e : Nat)
deriving DecidableEq

/-- Rust's `Poll<A>`. -/
inductive PollResult (α : Type) where
  | ready (v : α)
  | pending
deriving DecidableEq

/-- `impl Future for ReadFuture::poll` (runtime.rs lines 214-224): one
`read` attempt; would-block stores the current waker in the reactor
registry under the stream's token and suspends; any other outcome
(`Ok` or another error) is returned immediately, registry untouched. -/
def readFuture_poll (m : Nat → Option Nat) (token waker : Nat) (r : IOResult) :
    (Nat → Option Nat) × PollResult IOResult :=
  match r with
  | IOResult.wouldBlock => (insertWait m token waker, PollResult.pending)
  | x => (m, PollResult.ready x)

/-- `impl Future for WriteFuture::poll` (runtime.rs lines 232-242): same
shape as `readFuture_poll` over a `write` attempt. -/
def writeFuture_poll (m : Nat → Option Nat) (token waker : Nat) (r : IOResult) :
    (Nat → Option Nat) × PollResult IOResult :=
  match r with
  | IOResult.wouldBlock => (insertWait m token waker, PollResult.pending)
  | x => (m, PollResult.ready x)

/-- `impl Stream for Async<TcpListener>::poll_next` (runtime.rs lines
184-194): one `accept` attempt; success yields `Some(Ok(stream))`,
would-block registers the waker and suspends, and any other error yields
`Some(Err(e))` — an item of the stream, never `None` (the stream does not
end). -/
def listener_poll_next (m : Nat → Option Nat) (token waker : Nat) (r : IOResult) :
    (Nat → Option Nat) × PollResult (Option IOResult) :=
  match r with
  | IOResult.ok n => (m, PollResult.ready (some (IOResult.ok n)))
  | IOResult.wouldBlock => (insertWait m token waker, PollResult.pending)
  | IOResult.err e => (m, PollResult.ready (some (IOResult.err e)))

/-- Result of `poll_flush` / `poll_shutdown`. -/
inductive FlushResult where
  | ok
  | err (e : Nat)
deriving DecidableEq

/-- `AsyncWrite for Async<TcpStream>::poll_flush` (runtime.rs lines
310-315): `Poll::Ready(Ok(()))`, unconditionally.  It takes the same
inputs a suspend point would (the registry, the stream's token, the
current waker) but performs no OS call — note it does not even take an
`IOResult` argument — and returns the registry unchanged. -/
def poll_flush (m : Nat → Option Nat) (_token _waker : Nat) :
    (Nat → Option Nat) × PollResult FlushResult :=
  (m, PollResult.ready FlushResult.ok)

/-- `increase_refcount` (runtime.rs lines 349-354): wrap the raw pointer
back into an `Rc` under `ManuallyDrop` (count unchanged), clone it
(count + 1), and forget the clone too, for a net increment of one. -/
def increase_refcount (c : Nat) : Nat := c + 1

/-- `Helper::clone_waker` (runtime.rs lines 366-370): increments the
reference count and returns a `RawWaker` over the same data pointer.
It touches nothing else: in particular it is a function of the count
alone, with no access to the task or the queue. -/
def clone_waker (c : Nat) : Nat := increase_refcount c

/-- `Helper::drop_waker` (runtime.rs lines 382-384):
`drop(Rc::from_raw(ptr))` — the count drops by one and the `Task`
allocation is destroyed (the returned flag) exactly when the count
reaches zero. -/
def drop_waker (c : Nat) : Nat × Bool :=
  (c - 1, decide (c - 1 = 0))

/-- `Helper::wake` (runtime.rs lines 372-375): `Rc::from_raw` takes back
ownership of one reference, `RcWake::wake` runs `wake_by_ref` once
(runtime.rs lines 332-334), and the `Rc` is dropped at scope end — so the
wake protocol fires exactly once and the count drops by one. -/
def waker_wake (c : Nat) (s : WorkerState) (t : Nat) :
    (Nat × Bool) × Option WorkerState :=
  (drop_waker c, wake_by_ref s t)

/-- `Helper::wake_by_ref` (runtime.rs lines 377-380): the `Rc` is rebuilt
under `ManuallyDrop`, so the count is untouched; the wake protocol fires
exactly once. -/
def waker_wake_by_ref (c : Nat) (s : WorkerState) (t : Nat) :
    Nat × Option WorkerState :=
  (c, wake_by_ref s t)

/-- Worker-count selection in `run` (runtime.rs lines 37-42):
`env::var("RUSTMAXPROCS").ok().and_then(|s| s.parse().ok()).unwrap_or_else(num_cpus::get)`.
`parse` abstracts `str::parse::<usize>().ok()`; `envVar` is the variable's
value when set; `numCpus` is the detected logical CPU count. -/
def workerCount (parse : String → Option Nat) (envVar : Option String) (numCpus : Nat) : Nat :=
  (envVar.bind parse).getD numCpus

/-- C1: an invocation of `wake` or `wake_by_ref` on a Task (both run the
protocol of runtime.rs lines 118-132 exactly once): a Pending task becomes
Ready and is pushed onto its worker's runnable queue; a Running task
becomes Ready without being enqueued; on a Ready or Done task the wake is
a complete no-op, leaving state and queues untouched. -/
theorem c1_wake_protocol (s s' : WorkerState) (t : Nat) (st : State)
    (hst : s.states.get? t = some st) (hs : wake_by_ref s t = some s') :
    (st = State.Pending →
        s'.states.get? t = some State.Ready ∧
        s'.runnable = s.runnable ++ [t] ∧ s'.ready = s.ready ∧ s'.current = s.current) ∧
    (st = State.Running →
        s'.states.get? t = some State.Ready ∧
        s'.runnable = s.runnable ∧ s'.ready = s.ready ∧ s'.current = s.current) ∧
    ((st = State.Ready ∨ st = State.Done) → s' = s) := by
  have hlt : t < s.states.length := by
    rcases List.get?_eq_some.mp hst with ⟨hl, _⟩
    exact hl
  unfold wake_by_ref at hs
  rw [hst] at hs
  cases st with
  | Ready =>
    cases hs
    exact ⟨fun h => State.noConfusion h, fun h => State.noConfusion h, fun _ => rfl⟩
  | Done =>
    cases hs
    exact ⟨fun h => State.noConfusion h, fun h => State.noConfusion h, fun _ => rfl⟩
  | Pending =>
    injection hs with hs
    subst hs
    refine ⟨fun _ => ⟨List.get?_set_eq_of_lt _ hlt, rfl, rfl, rfl⟩,
      fun h => State.noConfusion h, fun h => ?_⟩
    rcases h with h | h <;> exact State.noConfusion h
  | Running =>
    injection hs with hs
    subst hs
    refine ⟨fun h => State.noConfusion h,
      fun _ => ⟨List.get?_set_eq_of_lt _ hlt, rfl, rfl, rfl⟩, fun h => ?_⟩
    rcases h with h | h <;> exact State.noConfusion h

theorem c1_wake_protocol_witness :
    (State.Pending = State.Pending →
        (WorkerState.mk [State.Ready] [0] [] none).states.get? 0 = some State.Ready ∧
        (WorkerState.mk [State.Ready] [0] [] none).runnable =
          (WorkerState.mk [State.Pending] [] [] none).runnable ++ [0] ∧
        (WorkerState.mk [State.Ready] [0] [] none).ready =
          (WorkerState.mk [State.Pending] [] [] none).ready ∧
        (WorkerState.mk [State.Ready] [0] [] none).current =
          (WorkerState.mk [State.Pending] [] [] none).current) ∧
    (State.Pending = State.Running →
        (WorkerState.mk [State.Ready] [0] [] none).states.get? 0 = some State.Ready ∧
        (WorkerState.mk [State.Ready] [0] [] none).runnable =
          (WorkerState.mk [State.Pending] [] [] none).runnable ∧
        (WorkerState.mk [State.Ready] [0] [] none).ready =
          (WorkerState.mk [State.Pending] [] [] none).ready ∧
        (WorkerState.mk [State.Ready] [0] [] none).current =
          (WorkerState.mk [State.Pending] [] [] none).current) ∧
    ((State.Pending = State.Ready ∨ State.Pending = State.Done) →
        WorkerState.mk [State.Ready] [0] [] none =
          WorkerState.mk [State.Pending] [] [] none) :=
  c1_wake_protocol ⟨[State.Pending], [], [], none⟩ ⟨[State.Ready], [0], [], none⟩
    0 State.Pending rfl rfl

/-- C2 counterexample: the claimed legal sequence
`Ready -> Running -> (Pending -> Ready -> Running)* -> Done` admits no
`Running -> Ready` transition, yet the code performs one: spawn a task,
snapshot, dequeue it (state Running), then wake it from inside its own
poll — `wake_by_ref`'s Running arm (runtime.rs lines 126-128) sets the
state back to Ready.  So the claim is false on this reachable trace. -/
theorem c2_state_sequence_counterexample :
    runTrace init [Label.spawn, Label.snapshot, Label.dequeue 0] =
      some ⟨[State.Running], [], [], some 0⟩ ∧
    step ⟨[State.Running], [], [], some 0⟩ (Label.wake 0) =
      some ⟨[State.Ready], [], [], some 0⟩ ∧
    claimNext State.Running State.Ready = false :=
  ⟨rfl, rfl, rfl⟩

/-- C2 amended: along every reachable step, a task's state either stays
put or makes one of the transitions Ready->Running, Running->Pending,
Running->Done, Pending->Ready — plus the two transitions the claimed
sequence omits: Running->Ready (a wake lands during the task's own poll)
and Ready->Done (the poll completes after such a wake).  Done remains
absorbing: once Done, the state never changes again and the task is in
neither queue. -/
theorem c2_transitions_amended (s s' : WorkerState) (l : Label) (t : Nat) (st st' : State)
    (hreach : Reachable s) (hstep : step s l = some s')
    (h1 : s.states.get? t = some st) (h2 : s'.states.get? t = some st') :
    (st ≠ st' → codeNext st st' = true) ∧
    (st = State.Done → st' = State.Done ∧ t ∉ s'.runnable ∧ t ∉ s'.ready) := by
  have hInv := inv_reachable s hreach
  have hInv' := inv_step s s' l hInv hstep
  have hlt : t < s.states.length := by
    rcases List.get?_eq_some.mp h1 with ⟨hl, _⟩
    exact hl
  have hmain : st = st' ∨ (codeNext st st' = true ∧ st ≠ State.Done) := by
    cases l with
    | spawn =>
      injection hstep with hstep
      subst hstep
      left
      have hk : (spawn s).states.get? t = s.states.get? t := List.get?_append hlt
      rw [hk, h1] at h2
      exact Option.some.inj h2
    | snapshot =>
      simp only [step] at hstep
      split at hstep
      case h_2 => exact Option.noConfusion hstep
      case h_1 hc hr =>
        injection hstep with hstep
        subst hstep
        left
        have h2' : s.states.get? t = some st' := h2
        rw [h1] at h2'
        exact Option.some.inj h2'
    | wait =>
      simp only [step] at hstep
      split at hstep
      case h_2 => exact Option.noConfusion hstep
      case h_1 hrn hr hc =>
        cases hstep
        left
        rw [h1] at h2
        exact Option.some.inj h2
    | dequeue u =>
      simp only [step] at hstep
      split at hstep
      case h_2 => exact Option.noConfusion hstep
      case h_1 v rest hc hr =>
        split at hstep
        case isFalse => exact Option.noConfusion hstep
        case isTrue he =>
          subst he
          injection hstep with hstep
          subst hstep
          by_cases hut : v = t
          · right
            have hst1 : s.states.get? v = some State.Ready := by
              apply hInv.queueReady
              rw [hr]
              exact List.mem_append.mpr (Or.inr (List.mem_cons.mpr (Or.inl rfl)))
            rw [hut] at hst1
            rw [hst1] at h1
            have hstR : st = State.Ready := (Option.some.inj h1).symm
            have h2' : (s.states.set v State.Running).get? t = some st' := h2
            rw [hut] at h2'
            rw [List.get?_set_eq_of_lt _ hlt] at h2'
            have hstR' : st' = State.Running := (Option.some.inj h2').symm
            rw [hstR, hstR']
            exact ⟨rfl, fun hh => State.noConfusion hh⟩
          · left
            have h2' : (s.states.set v State.Running).get? t = some st' := h2
            rw [List.get?_set_ne _ _ hut] at h2'
            rw [h1] at h2'
            exact Option.some.inj h2'
    | wake u =>
      have hw : wake_by_ref s u = some s' := hstep
      unfold wake_by_ref at hw
      split at hw
      case h_1 hst =>
        cases hw
        left
        rw [h1] at h2
        exact Option.some.inj h2
      case h_4 hst =>
        cases hw
        left
        rw [h1] at h2
        exact Option.some.inj h2
      case h_5 hst => exact Option.noConfusion hw
      case h_2 hst =>
        injection hw with hw
        subst hw
        by_cases hut : u = t
        · right
          rw [hut] at hst
          rw [hst] at h1
          have hstP : st = State.Pending := (Option.some.inj h1).symm
          have h2' : (s.states.set u State.Ready).get? t = some st' := h2
          rw [hut] at h2'
          rw [List.get?_set_eq_of_lt _ hlt] at h2'
          have hstR' : st' = State.Ready := (Option.some.inj h2').symm
          rw [hstP, hstR']
          exact ⟨rfl, fun hh => State.noConfusion hh⟩
        · left
          have h2' : (s.states.set u State.Ready).get? t = some st' := h2
          rw [List.get?_set_ne _ _ hut] at h2'
          rw [h1] at h2'
          exact Option.some.inj h2'
      case h_3 hst =>
        injection hw with hw
        subst hw
        by_cases hut : u = t
        · right
          rw [hut] at hst
          rw [hst] at h1
          have hstR : st = State.Running := (Option.some.inj h1).symm
          have h2' : (s.states.set u State.Ready).get? t = some st' := h2
          rw [hut] at h2'
          rw [List.get?_set_eq_of_lt _ hlt] at h2'
          have hstR' : st' = State.Ready := (Option.some.inj h2').symm
          rw [hstR, hstR']
          exact ⟨rfl, fun hh => State.noConfusion hh⟩
        · left
          have h2' : (s.states.set u State.Ready).get? t = some st' := h2
          rw [List.get?_set_ne _ _ hut] at h2'
          rw [h1] at h2'
          exact Option.some.inj h2'
    | pollPending =>
      simp only [step] at hstep
      split at hstep
      case h_2 => exact Option.noConfusion hstep
      case h_1 u hc =>
        split at hstep
        case h_1 hst =>
          injection hstep with hstep
          subst hstep
          by_cases hut : u = t
          · right
            rw [hut] at hst
            rw [hst] at h1
            have hstR : st = State.Running := (Option.some.inj h1).symm
            have h2' : (s.states.set u State.Pending).get? t = some st' := h2
            rw [hut] at h2'
            rw [List.get?_set_eq_of_lt _ hlt] at h2'
            have hstP' : st' = State.Pending := (Option.some.inj h2').symm
            rw [hstR, hstP']
            exact ⟨rfl, fun hh => State.noConfusion hh⟩
          · left
            have h2' : (s.states.set u State.Pending).get? t = some st' := h2
            rw [List.get?_set_ne _ _ hut] at h2'
            rw [h1] at h2'
            exact Option.some.inj h2'
        case h_2 =>
          injection hstep with hstep
          subst hstep
          left
          have h2' : s.states.get? t = some st' := h2
          rw [h1] at h2'
          exact Option.some.inj h2'
    | pollDone =>
      simp only [step] at hstep
      split at hstep
      case h_2 => exact Option.noConfusion hstep
      case h_1 u hc =>
        injection hstep with hstep
        subst hstep
        by_cases hut : u = t
        · right
          have hcs := hInv.currentState u hc
          rw [hut] at hcs
          have h2' : (s.states.set u State.Done).get? t = some st' := h2
          rw [hut] at h2'
          rw [List.get?_set_eq_of_lt _ hlt] at h2'
          have hstD' : st' = State.Done := (Option.some.inj h2').symm
          rw [hstD']
          rcases hcs with hcs | hcs <;> rw [hcs] at h1 <;>
            rw [(Option.some.inj h1).symm] <;>
            exact ⟨rfl, fun hh => State.noConfusion hh⟩
        · left
          have h2' : (s.states.set u State.Done).get? t = some st' := h2
          rw [List.get?_set_ne _ _ hut] at h2'
          rw [h1] at h2'
          exact Option.some.inj h2'
  constructor
  · intro hne
    rcases hmain with he | ⟨hcn, _⟩
    · exact absurd he hne
    · exact hcn
  · intro hdone
    have hst' : st' = State.Done := by
      rcases hmain with he | ⟨_, hnd⟩
      · rw [← he, hdone]
      · exact absurd hdone hnd
    refine ⟨hst', ?_, ?_⟩
    · intro hmem
      have hrd := hInv'.queueReady t (List.mem_append.mpr (Or.inl hmem))
      rw [h2] at hrd
      rw [hst'] at hrd
      exact State.noConfusion (Option.some.inj hrd)
    · intro hmem
      have hrd := hInv'.queueReady t (List.mem_append.mpr (Or.inr hmem))
      rw [h2] at hrd
      rw [hst'] at hrd
      exact State.noConfusion (Option.some.inj hrd)

theorem c2_transitions_amended_witness :
    (State.Running ≠ State.Done → codeNext State.Running State.Done = true) ∧
    (State.Running = State.Done →
        State.Done = State.Done ∧
        0 ∉ (WorkerState.mk [State.Done] [] [] none).runnable ∧
        0 ∉ (WorkerState.mk [State.Done] [] [] none).ready) :=
  c2_transitions_amended ⟨[State.Running], [], [], some 0⟩ ⟨[State.Done], [], [], none⟩
    Label.pollDone 0 State.Running State.Done
    ⟨[Label.spawn, Label.snapshot, Label.dequeue 0], rfl⟩ rfl rfl rfl

/-- C3: in every reachable worker state, the runnable queue holds each
task at most once — and the same holds for the drain working list, and no
task sits in both at the same time, so no sequence of spawns, drain steps
and wakes ever double-enqueues a task. -/
theorem c3_no_duplicate_enqueue (s : WorkerState) (h : Reachable s) :
    s.runnable.Nodup ∧ s.ready.Nodup ∧ ∀ u ∈ s.runnable, u ∉ s.ready := by
  have hInv := inv_reachable s h
  have hn := List.nodup_append.mp hInv.nodup
  exact ⟨hn.1, hn.2.1, fun u hu hv => hn.2.2 hu hv⟩

theorem c3_no_duplicate_enqueue_witness :
    (WorkerState.mk [State.Ready, State.Ready] [0, 1] [] none).runnable.Nodup ∧
    (WorkerState.mk [State.Ready, State.Ready] [0, 1] [] none).ready.Nodup ∧
    ∀ u ∈ (WorkerState.mk [State.Ready, State.Ready] [0, 1] [] none).runnable,
      u ∉ (WorkerState.mk [State.Ready, State.Ready] [0, 1] [] none).ready :=
  c3_no_duplicate_enqueue ⟨[State.Ready, State.Ready], [0, 1], [], none⟩
    ⟨[Label.spawn, Label.spawn], rfl⟩

/-- C4: a drain pass (i) swaps the entire runnable queue into the local
working list, leaving the queue empty; (ii) within a pass (no further
snapshot) the tasks dequeued, in order, are exactly the snapshot contents
once the working list is exhausted; (iii) on a reachable state each
snapshotted task is dequeued (hence polled) exactly once in the pass; and
(iv) the worker enters the blocking reactor wait only when both the
runnable queue and the working list are empty — so everything enqueued
during the pass is polled before the worker blocks. -/
theorem c4_drain_pass :
    (∀ s s' : WorkerState, step s Label.snapshot = some s' →
        s'.ready = s.runnable ∧ s'.runnable = []) ∧
    (∀ (s s' : WorkerState) (ls : List Label), runTrace s ls = some s' →
        (∀ l ∈ ls, l ≠ Label.snapshot) → s'.ready = [] →
        s.ready = dequeuedIds ls) ∧
    (∀ (s s' : WorkerState) (ls : List Label), Reachable s →
        runTrace s ls = some s' → (∀ l ∈ ls, l ≠ Label.snapshot) → s'.ready = [] →
        ∀ t ∈ s.ready, List.count t (dequeuedIds ls) = 1) ∧
    (∀ s s' : WorkerState, step s Label.wait = some s' →
        s.runnable = [] ∧ s.ready = []) := by
  refine ⟨?_, ?_, ?_, ?_⟩
  · intro s s' h
    simp only [step] at h
    split at h
    case h_2 => exact Option.noConfusion h
    case h_1 hc hr =>
      injection h with h
      subst h
      exact ⟨rfl, rfl⟩
  · intro s s' ls hrun hns hemp
    have hd := runTrace_ready_dequeued s s' ls hrun hns
    rw [hemp, List.append_nil] at hd
    exact hd
  · intro s s' ls hreach hrun hns hemp t ht
    have hd := runTrace_ready_dequeued s s' ls hrun hns
    rw [hemp, List.append_nil] at hd
    have hInv := inv_reachable s hreach
    have hnr : s.ready.Nodup := (List.nodup_append.mp hInv.nodup).2.1
    rw [← hd]
    exact List.count_eq_one_of_mem hnr ht
  · intro s s' h
    simp only [step] at h
    split at h
    case h_2 => exact Option.noConfusion h
    case h_1 hrn hr hc => exact ⟨hrn, hr⟩

theorem c4_drain_pass_witness :
    (WorkerState.mk [State.Ready] [] [0] none).ready =
      dequeuedIds [Label.dequeue 0, Label.pollDone] :=
  c4_drain_pass.2.1 ⟨[State.Ready], [], [0], none⟩ ⟨[State.Done], [], [], none⟩
    [Label.dequeue 0, Label.pollDone] rfl (by decide) rfl

/-- C5 counterexample: spawn a task, snapshot, dequeue it, wake it during
its own poll (state Running -> Ready), then let the poll return Pending.
The drain step leaves the state Ready and does not enqueue the task: the
final runnable queue is empty, so the task is NOT present in the Runnable
Queue and is not polled again, contradicting the claim. -/
theorem c5_wake_during_poll_counterexample :
    runTrace init
        [Label.spawn, Label.snapshot, Label.dequeue 0, Label.wake 0, Label.pollPending] =
      some ⟨[State.Ready], [], [], none⟩ ∧
    0 ∉ (WorkerState.mk [State.Ready] [] [] none).runnable ∧
    0 ∉ (WorkerState.mk [State.Ready] [] [] none).ready :=
  ⟨rfl, by decide, by decide⟩

/-- C5 amended: a task woken while its own poll runs (state Ready at the
moment the poll returns Pending) is left in state Ready by the post-poll
bookkeeping (runtime.rs lines 75-79 leave any non-Running state alone)
but is NOT re-enqueued: after the drain step it is absent from both the
runnable queue and the working list, so it is not polled again unless
something else enqueues it — and a further wake will not, since the wake
protocol is a no-op on a Ready task. -/
theorem c5_wake_during_poll_amended (s s' : WorkerState) (t : Nat)
    (hreach : Reachable s) (hcur : s.current = some t)
    (hst : s.states.get? t = some State.Ready)
    (hstep : step s Label.pollPending = some s') :
    s'.states.get? t = some State.Ready ∧
    t ∉ s'.runnable ∧ t ∉ s'.ready ∧ s'.current = none := by
  have hInv := inv_reachable s hreach
  have hq := hInv.currentNotQueued t hcur
  simp only [step] at hstep
  split at hstep
  case h_2 hnone =>
    rw [hcur] at hnone
    exact Option.noConfusion hnone
  case h_1 u hc =>
    have hut : u = t := by
      rw [hcur] at hc
      exact (Option.some.inj hc).symm
    subst hut
    split at hstep
    case h_1 hrun =>
      rw [hst] at hrun
      exact absurd (Option.some.inj hrun) (fun hh => State.noConfusion hh)
    case h_2 =>
      injection hstep with hstep
      subst hstep
      exact ⟨hst, hq.1, hq.2, rfl⟩

theorem c5_wake_during_poll_amended_witness :
    (WorkerState.mk [State.Ready] [] [] none).states.get? 0 = some State.Ready ∧
    0 ∉ (WorkerState.mk [State.Ready] [] [] none).runnable ∧
    0 ∉ (WorkerState.mk [State.Ready] [] [] none).ready ∧
    (WorkerState.mk [State.Ready] [] [] none).current = none :=
  c5_wake_during_poll_amended ⟨[State.Ready], [], [], some 0⟩
    ⟨[State.Ready], [], [], none⟩ 0
    ⟨[Label.spawn, Label.snapshot, Label.dequeue 0, Label.wake 0], rfl⟩ rfl rfl rfl

/-- C6: the reactor registry holds one waker slot per key:
`insertWait` (the `record_wait` of the spec, i.e. `wait.insert`)
overwrites the previous binding for the key and changes no other key; the
dispatch loop removes the stored waker before invoking it, so after
dispatch every event key's slot is empty, every invocation delivers the
waker that was stored (the most recently registered one), each key is
invoked at most once even if it occurs in the event list repeatedly, and
every event key that had a stored waker is invoked. -/
theorem c6_registry_single_slot (m : Nat → Option Nat) (k k' w : Nat) (es : List Nat) :
    insertWait m k w k = some w ∧
    (k' ≠ k → insertWait m k w k' = m k') ∧
    (∀ e ∈ es, (dispatchEvents m es).1 e = none) ∧
    (∀ p ∈ (dispatchEvents m es).2, m p.1 = some p.2) ∧
    ((dispatchEvents m es).2.map Prod.fst).Nodup ∧
    (∀ e ∈ es, (m e).isSome → e ∈ (dispatchEvents m es).2.map Prod.fst) := by
  refine ⟨?_, ?_, dispatch_mem_none m es, dispatch_pairs_stored m es,
    dispatch_keys_nodup m es, dispatch_complete m es⟩
  · unfold insertWait
    rw [if_pos rfl]
  · intro h
    unfold insertWait
    rw [if_neg h]

theorem c6_registry_single_slot_witness :
    insertWait (insertWait (fun _ => none) 1 7) 1 9 1 = some 9 ∧
    (2 : Nat) ≠ 1 ∧
    insertWait (fun _ => none) 1 7 2 = none :=
  ⟨(c6_registry_single_slot (insertWait (fun _ => none) 1 7) 1 2 9 []).1,
    by decide,
    (c6_registry_single_slot (fun _ => none) 1 2 7 []).2.1 (by decide)⟩

/-- C7: each accept / read / write attempt behaves by cases on the one
non-blocking OS call: success returns ready immediately with the registry
untouched; would-block stores the current waker under the resource's
token and suspends; any other error returns ready with the error and the
registry untouched — and for the listener the error is yielded as an item
`some (err e)` of the accept stream, not as the end of the stream. -/
theorem c7_io_attempt_cases (m : Nat → Option Nat) (token waker n e : Nat) :
    (readFuture_poll m token waker (IOResult.ok n) =
        (m, PollResult.ready (IOResult.ok n)) ∧
      (readFuture_poll m token waker IOResult.wouldBlock).2 = PollResult.pending ∧
      (readFuture_poll m token waker IOResult.wouldBlock).1 token = some waker ∧
      readFuture_poll m token waker (IOResult.err e) =
        (m, PollResult.ready (IOResult.err e))) ∧
    (writeFuture_poll m token waker (IOResult.ok n) =
        (m, PollResult.ready (IOResult.ok n)) ∧
      (writeFuture_poll m token waker IOResult.wouldBlock).2 = PollResult.pending ∧
      (writeFuture_poll m token waker IOResult.wouldBlock).1 token = some waker ∧
      writeFuture_poll m token waker (IOResult.err e) =
        (m, PollResult.ready (IOResult.err e))) ∧
    (listener_poll_next m token waker (IOResult.ok n) =
        (m, PollResult.ready (some (IOResult.ok n))) ∧
      (listener_poll_next m token waker IOResult.wouldBlock).2 = PollResult.pending ∧
      (listener_poll_next m token waker IOResult.wouldBlock).1 token = some waker ∧
      listener_poll_next m token waker (IOResult.err e) =
        (m, PollResult.ready (some (IOResult.err e)))) := by
  refine ⟨⟨rfl, rfl, ?_, rfl⟩, ⟨rfl, rfl, ?_, rfl⟩, ⟨rfl, rfl, ?_, rfl⟩⟩ <;>
    (show insertWait m token waker token = some waker
     unfold insertWait
     rw [if_pos rfl])

/-- C8: the waker vtable over a task: `clone` bumps the reference count
by one and touches nothing else; `wake` runs the wake protocol exactly
once and consumes one reference; `wake_by_ref` runs the protocol exactly
once with the count unchanged; dropping a waker decrements the count and
destroys the Task allocation precisely when the count reaches zero. -/
theorem c8_waker_vtable (c : Nat) (s : WorkerState) (t : Nat) (hc : 0 < c) :
    clone_waker c = c + 1 ∧
    waker_wake c s t = ((c - 1, decide (c - 1 = 0)), wake_by_ref s t) ∧
    waker_wake_by_ref c s t = (c, wake_by_ref s t) ∧
    (drop_waker c).1 = c - 1 ∧
    ((drop_waker c).2 = true ↔ c = 1) := by
  refine ⟨rfl, rfl, rfl, rfl, ?_⟩
  unfold drop_waker
  simp only [decide_eq_true_eq]
  omega

theorem c8_waker_vtable_witness :
    0 < 1 ∧
    (clone_waker 1 = 1 + 1 ∧
      waker_wake 1 init 0 = ((1 - 1, decide (1 - 1 = 0)), wake_by_ref init 0) ∧
      waker_wake_by_ref 1 init 0 = (1, wake_by_ref init 0) ∧
      (drop_waker 1).1 = 1 - 1 ∧
      ((drop_waker 1).2 = true ↔ 1 = 1)) :=
  ⟨by decide, c8_waker_vtable 1 init 0 (by decide)⟩

/-- C9: the worker count comes from the single worker-count environment
variable (`RUSTMAXPROCS`) when it is set and parses; when unset, or set
to a value the parser rejects, it equals the detected logical CPU
count. -/
theorem c9_worker_count (parse : String → Option Nat) (sv : String) (n numCpus : Nat) :
    (parse sv = some n → workerCount parse (some sv) numCpus = n) ∧
    (parse sv = none → workerCount parse (some sv) numCpus = numCpus) ∧
    workerCount parse none numCpus = numCpus := by
  refine ⟨?_, ?_, rfl⟩
  · intro h
    unfold workerCount
    rw [show (some sv).bind parse = parse sv from rfl, h]
    rfl
  · intro h
    unfold workerCount
    rw [show (some sv).bind parse = parse sv from rfl, h]
    rfl

theorem c9_worker_count_witness :
    ((fun _ : String => some 8) : String → Option Nat) "8" = some 8 ∧
    workerCount (fun _ => some 8) (some "8") 4 = 8 ∧
    ((fun _ : String => (none : Option Nat)) : String → Option Nat) "zzz" = none ∧
    workerCount (fun _ => none) (some "zzz") 4 = 4 ∧
    workerCount (fun _ => some 8) none 4 = 4 :=
  ⟨rfl, (c9_worker_count (fun _ => some 8) "8" 8 4).1 rfl, rfl,
    (c9_worker_count (fun _ => none) "zzz" 0 4).2.1 rfl,
    (c9_worker_count (fun _ => some 8) "8" 8 4).2.2⟩

/-- C10: `poll_flush` returns ready success unconditionally and has no
frame effect: the registry is returned unchanged (every key keeps its
binding), and the function does not even consume an OS-call result — no
socket operation occurs on the flush path. -/
theorem c10_poll_flush_noop (m : Nat → Option Nat) (token waker k : Nat) :
    poll_flush m token waker = (m, PollResult.ready FlushResult.ok) ∧
    (poll_flush m token waker).1 k = m k :=
  ⟨rfl, rfl⟩

end GreeterRuntime
